import Mathlib

/-!
Verification of the kanji constituent add-on (`src/__init__.py`).

The Python source is shallowly embedded here.  Strings are modelled as
lists of Unicode characters (`Str`), Python dictionaries as association
lists that keep insertion order (first occurrence of a key is the binding
read by lookups, exactly as a Python `dict`), and the host record store
(`mw.col`) as an explicit query function `Char → List Note`.  Side
effects (printing, writing the cache file) are modelled as explicit
outputs.
-/

/-- Text is a list of Unicode scalar values, as Python iterates a `str`
code point by code point. -/
abbrev Str := List Char

/-- Coerce a Lean string literal into the `Str` model. -/
def strL (s : String) : Str := s.data

/-- Python `str.strip()`: drop whitespace from both ends. -/
def pyStrip (s : Str) : Str :=
  ((s.dropWhile Char.isWhitespace).reverse.dropWhile Char.isWhitespace).reverse

/-- Python `str.lower()` (restricted to the ASCII range, which is all the
configurations exercised here use). -/
def pyLower (s : Str) : Str := s.map Char.toLower

/-- Python `str.split(sep)` for a one-character separator. -/
def splitOnChar (sep : Char) : Str → List Str
  | [] => [[]]
  | c :: rest =>
    match splitOnChar sep rest with
    | [] => [[]]
    | g :: gs => if c == sep then [] :: g :: gs else (c :: g) :: gs

/-- Does `hay` begin with `needle`?  (Python `str.startswith`.) -/
def leadsWith : Str → Str → Bool
  | [], _ => true
  | _ :: _, [] => false
  | a :: as, b :: bs => a == b && leadsWith as bs

/-- Python `needle in hay` substring containment. -/
def hasSub (needle : Str) : Str → Bool
  | [] => needle.isEmpty
  | l@(_ :: t) => leadsWith needle l || hasSub needle t

/-- `KANJI_RE.fullmatch(ch)` for a single character: the regular
expression `[一-鿿]` full-matches `ch` iff the code point lies in
the CJK Unified Ideographs block. -/
def kanjiMatch (c : Char) : Bool := 0x4E00 ≤ c.toNat && c.toNat ≤ 0x9FFF

/-- The loop body of `extract_unique_kanji`: `seen` is the set of
characters already emitted (the Python `seen : Set[str]`). -/
def extractAux (seen : List Char) : Str → List Char
  | [] => []
  | c :: rest =>
    if kanjiMatch c && !(seen.contains c) then c :: extractAux (c :: seen) rest
    else extractAux seen rest

/-- `extract_unique_kanji(text)` from the source. -/
def extract_unique_kanji (text : Str) : List Char := extractAux [] text

section AListOps

variable {κ ν : Type} [BEq κ]

/-- Reading `d.get(k)` from a Python dict modelled as an ordered
association list: the first binding of `k` wins. -/
def alist_get (d : List (κ × ν)) (k : κ) : Option ν :=
  (d.find? (fun p => p.1 == k)).map Prod.snd

/-- Python `d[k] = v`: replace the existing binding in place (keeping its
position), or append a new binding at the end. -/
def alist_set : List (κ × ν) → κ → ν → List (κ × ν)
  | [], k, v => [(k, v)]
  | (k1, v1) :: rest, k, v =>
    if k1 == k then (k1, v) :: rest else (k1, v1) :: alist_set rest k v

/-- Python `d.update(m)`: assign every binding of `m` into `d`, in `m`'s
iteration order. -/
def alist_update (d m : List (κ × ν)) : List (κ × ν) :=
  m.foldl (fun acc p => alist_set acc p.1 p.2) d

/-- The keys of an association list, in order. -/
def alist_keys (d : List (κ × ν)) : List κ := d.map Prod.fst

end AListOps

/-- An Anki note as the add-on sees it: a note-type name and named
fields.  `note[f]` raises `KeyError` when `f` is absent, which the model
renders as `none` from `fieldGet`. -/
structure Note where
  typeName : Str
  fields : List (Str × Str)
deriving DecidableEq

/-- Field access `note[fname]`, `none` standing for a `KeyError`. -/
def fieldGet (n : Note) (fname : Str) : Option Str := alist_get n.fields fname

/-- The inner loop of `lookup_meanings` over the candidate notes returned
by `col.find_notes` for one character `k`:
a `KeyError` on the search field skips the candidate; a candidate whose
stripped search field equals `k` yields its stripped meaning field, or
the empty string when the meaning field is absent, and stops the scan. -/
def scanCandidates (s a : Str) (k : Char) : List Note → Option Str
  | [] => none
  | n :: rest =>
    match fieldGet n s with
    | none => scanCandidates s a k rest
    | some sv =>
      if pyStrip sv == [k] then
        match fieldGet n a with
        | some av => some (pyStrip av)
        | none => some []
      else scanCandidates s a k rest

/-- The outer loop of `lookup_meanings`, threading the result dict. -/
def lookupMeaningsAux (s a : Str) (f : Char → List Note) (res : List (Char × Str)) :
    List Char → List (Char × Str)
  | [] => res
  | k :: rest =>
    match scanCandidates s a k (f k) with
    | some v => lookupMeaningsAux s a f (alist_set res k v) rest
    | none => lookupMeaningsAux s a f res rest

/-- `lookup_meanings(kanji)` from the source, with the configured search
field `s`, meaning field `a`, and the host store modelled by the query
function `f` (the `col.find_notes`/`col.get_note` composite). -/
def lookup_meanings (s a : Str) (f : Char → List Note) (ks : List Char) :
    List (Char × Str) :=
  lookupMeaningsAux s a f [] ks

/-- `join_pairs(mapping)`: format non-empty entries as `"k: v"` (each
stripped) and join them with the full-width space U+3000. -/
def join_pairs (m : List (Char × Str)) : Str :=
  List.intercalate (strL "　")
    ((m.filter (fun p => !p.2.isEmpty)).map (fun p => pyStrip (p.1 :: strL ": " ++ p.2)))

/-- The cache-checking loop of `lookup_with_cache`: builds the result
dict from cache hits and collects the misses, in extraction order. -/
def cacheScanAux (cache : List (Char × Str)) (res : List (Char × Str)) (ms : List Char) :
    List Char → List (Char × Str) × List Char
  | [] => (res, ms)
  | k :: rest =>
    match alist_get cache k with
    | some v => cacheScanAux cache (alist_set res k v) ms rest
    | none => cacheScanAux cache res (ms ++ [k]) rest

/-- `lookup_with_cache(word)` from the source: the two-tier resolution
engine.  Returns the result mapping together with the updated
`KANJI_CACHE` (the `save_cache` call persists exactly that table). -/
def lookup_with_cache (s a : Str) (f : Char → List Note)
    (cache : List (Char × Str)) (word : Str) :
    List (Char × Str) × List (Char × Str) :=
  let kanji_list := extract_unique_kanji word
  let p := cacheScanAux cache [] [] kanji_list
  let result := p.1
  let new_kanji := p.2
  if new_kanji.isEmpty then (result, cache)
  else
    let meanings := lookup_meanings s a f new_kanji
    (alist_update result meanings, alist_update cache meanings)

/-- The characters of `word` the engine treats as cache misses. -/
def missesOf (cache : List (Char × Str)) (word : Str) : List Char :=
  (extract_unique_kanji word).filter (fun k => (alist_get cache k).isNone)

/-- The cache hits among a character list, as an ordered mapping. -/
def hitsOf (cache : List (Char × Str)) (ks : List Char) : List (Char × Str) :=
  ks.filterMap (fun k => (alist_get cache k).map (fun v => (k, v)))

/-- The characters of `ks` the source answers, paired with their
answers, in order. -/
def answersOf (s a : Str) (f : Char → List Note) (ks : List Char) :
    List (Char × Str) :=
  ks.filterMap (fun k => (scanCandidates s a k (f k)).map (fun v => (k, v)))

/-- The note-type filter list built by `populate` from the `noteTypes`
configuration string. -/
def ntFilterOf (noteTypes : Str) : List Str :=
  (splitOnChar ',' noteTypes).filterMap
    (fun t => if (pyStrip t).isEmpty then none else some (pyLower (pyStrip t)))

/-- `note[src]` read with the empty string as the (guarded, unreachable)
default. -/
def getFieldD (n : Note) (fname : Str) : Str := (fieldGet n fname).getD []

/-- `note[dst] = v`. -/
def setField (n : Note) (fname v : Str) : Note :=
  { n with fields := alist_set n.fields fname v }

/-- `populate(note)` from the source.  `mediaStrip` models the host API
`mw.col.media.strip`; the returned pair is the boolean result together
with the (possibly) mutated note. -/
def populate (noteTypes src dst s a : Str) (f : Char → List Note)
    (mediaStrip : Str → Str) (note : Note) : Bool × Note :=
  let ntf := ntFilterOf noteTypes
  if !ntf.isEmpty && !(ntf.any (fun t => hasSub t (pyLower note.typeName))) then
    (false, note)
  else if !(fieldGet note src).isSome || !(fieldGet note dst).isSome then
    (false, note)
  else
    let expr := pyStrip (mediaStrip (getFieldD note src))
    if expr.isEmpty then (false, note)
    else
      let kanji := extract_unique_kanji expr
      if kanji.isEmpty then (false, note)
      else
        let mapping := lookup_meanings s a f kanji
        if mapping.isEmpty then (false, note)
        else (true, setField note dst (join_pairs mapping))

/-- The three observable states of the durable cache file when
`load_cache` runs: missing, present but unreadable or unparsable (the
`except` branch), or present with a parsed table. -/
inductive CacheFile where
  | absent
  | corrupt
  | valid (table : List (Char × Str))
deriving DecidableEq

/-- `load_cache()` from the source.  The second component records
whether the failure message was printed. -/
def load_cache : CacheFile → List (Char × Str) × Bool
  | .absent => ([], false)
  | .corrupt => ([], true)
  | .valid t => (t, false)

/-- `cmd.split(":", 1)[1]`: everything after the first colon. -/
def splitColonRest : Str → Str
  | [] => []
  | c :: rest => if c == ':' then rest else splitColonRest rest

/-- The HTML body built by `on_js_command`: non-empty entries joined by
`<br>`, or the not-found message. -/
def hoverHtml (m : List (Char × Str)) (word : Str) : Str :=
  let joined :=
    List.intercalate (strL "<br>")
      ((m.filter (fun p => !p.2.isEmpty)).map (fun p => p.1 :: strL ": " ++ p.2))
  if joined.isEmpty then strL "No kanji found in \x27" ++ word ++ strL "\x27." else joined

/-- `on_js_command(handled, cmd, context)` from the source.  The result
is the returned handled value, the cache after the call, and the display
dispatch (`context.web.eval` payload, as the pair of word and HTML)
performed, if any. -/
def on_js_command (s a : Str) (f : Char → List Note) (cache : List (Char × Str))
    (handled : Bool × Option Str) (cmd : Str) :
    (Bool × Option Str) × List (Char × Str) × Option (Str × Str) :=
  if leadsWith (strL "kanjiLookup:") cmd then
    let word := splitColonRest cmd
    let r := lookup_with_cache s a f cache word
    ((true, none), r.2, some (word, hoverHtml r.1 word))
  else (handled, cache, none)

/-- Modelled from the spec: the extraction contract of section 4.1 —
keep the characters of the target block, deduplicated to their first
occurrence.  (`firstOccDedup` keeps the head and removes its later
duplicates, recursively.) -/
def firstOccDedup : List Char → List Char
  | [] => []
  | c :: l => c :: firstOccDedup (l.filter (fun d => d != c))
termination_by l => l.length
decreasing_by
  simp only [List.length_cons]
  exact Nat.lt_succ_of_le (List.length_filter_le _ _)

/-! Concrete fixtures used by counterexamples and witnesses: the default
configuration's field names, and small host stores. -/

/-- The default `searchField` configuration value. -/
def sE : Str := strL "Expression"

/-- The default `additionalField` (meaning field) configuration value. -/
def aK : Str := strL "keyword"

/-- The default `destinationField` configuration value. -/
def dstC : Str := strL "Constituents"

/-- A catalogued record for 畫 whose meaning field is missing. -/
def nGa : Note := ⟨strL "Kanji", [(strL "Expression", strL "畫")]⟩

/-- A host store holding only `nGa`, found when querying 畫. -/
def fGa : Char → List Note := fun k => if k == '畫' then [nGa] else []

/-- A catalogued record resolving 林 to "woods". -/
def nWoods : Note :=
  ⟨strL "Kanji", [(strL "Expression", strL "林"), (strL "keyword", strL "woods")]⟩

/-- A host store holding only `nWoods`, found when querying 林. -/
def fWoods : Char → List Note := fun k => if k == '林' then [nWoods] else []

/-- A host store that never returns any candidate record. -/
def fNoneStore : Char → List Note := fun _ => []

/-- A candidate record without the search field. -/
def nOther : Note := ⟨strL "Kanji", [(strL "Other", strL "x")]⟩

/-- A host store whose every query returns only `nOther`. -/
def fOther : Char → List Note := fun _ => [nOther]

/-- A vocabulary note for 畫 whose destination field is empty. -/
def noteGa : Note :=
  ⟨strL "Vocab", [(strL "Expression", strL "畫"), (strL "Constituents", [])]⟩

/-- A vocabulary note for 畫 whose destination field holds "old". -/
def noteOld : Note :=
  ⟨strL "Vocab", [(strL "Expression", strL "畫"), (strL "Constituents", strL "old")]⟩

section AListLemmas

set_option linter.unusedSectionVars false

variable {κ ν : Type} [BEq κ] [LawfulBEq κ]

theorem alist_get_set_self (d : List (κ × ν)) (k : κ) (v : ν) :
    alist_get (alist_set d k v) k = some v := by
  induction d with
  | nil => simp [alist_get, alist_set]
  | cons p rest ih =>
    obtain ⟨k1, v1⟩ := p
    by_cases h : k1 = k
    · subst h
      simp [alist_get, alist_set, List.find?]
    · have hb : (k1 == k) = false := beq_eq_false_iff_ne.mpr h
      simp only [alist_set, hb, Bool.false_eq_true, if_false]
      simpa [alist_get, List.find?, hb] using ih

theorem alist_get_set_ne (d : List (κ × ν)) (k k' : κ) (v : ν) (h : k' ≠ k) :
    alist_get (alist_set d k v) k' = alist_get d k' := by
  have hb : (k == k') = false := beq_eq_false_iff_ne.mpr (Ne.symm h)
  induction d with
  | nil => simp [alist_get, alist_set, List.find?, hb]
  | cons p rest ih =>
    obtain ⟨k1, v1⟩ := p
    by_cases h1 : k1 = k
    · subst h1
      simp [alist_get, alist_set, List.find?, hb]
    · have hb1 : (k1 == k) = false := beq_eq_false_iff_ne.mpr h1
      by_cases h2 : k1 = k'
      · subst h2
        simp [alist_get, alist_set, List.find?, hb1]
      · have hb2 : (k1 == k') = false := beq_eq_false_iff_ne.mpr h2
        simp only [alist_set, hb1, Bool.false_eq_true, if_false]
        simpa [alist_get, List.find?, hb2] using ih

theorem alist_get_none_iff (d : List (κ × ν)) (k : κ) :
    alist_get d k = none ↔ ∀ p ∈ d, p.1 ≠ k := by
  simp [alist_get, List.find?_eq_none]

theorem alist_get_some_mem_keys {d : List (κ × ν)} {k : κ} {v : ν}
    (h : alist_get d k = some v) : k ∈ alist_keys d := by
  simp only [alist_get, Option.map_eq_some'] at h
  obtain ⟨p, hp, rfl⟩ := h
  have hmem := List.mem_of_find?_eq_some hp
  have hkey : p.1 = k := by
    have := List.find?_some hp
    simpa using this
  exact hkey ▸ List.mem_map_of_mem Prod.fst hmem

theorem alist_get_of_not_mem_keys {d : List (κ × ν)} {k : κ}
    (h : k ∉ alist_keys d) : alist_get d k = none := by
  rw [alist_get_none_iff]
  intro p hp hk
  exact h (hk ▸ List.mem_map_of_mem Prod.fst hp)

theorem alist_set_of_get_none {d : List (κ × ν)} {k : κ} (v : ν)
    (h : alist_get d k = none) : alist_set d k v = d ++ [(k, v)] := by
  induction d with
  | nil => rfl
  | cons p rest ih =>
    obtain ⟨k1, v1⟩ := p
    rw [alist_get_none_iff] at h
    have h1 : k1 ≠ k := h (k1, v1) (List.mem_cons_self _ _)
    have hrest : alist_get rest k = none := by
      rw [alist_get_none_iff]
      exact fun p hp => h p (List.mem_cons_of_mem _ hp)
    simp only [alist_set, beq_eq_false_iff_ne.mpr h1, Bool.false_eq_true, if_false]
    simp [ih hrest]

theorem alist_get_append_of_none {d1 d2 : List (κ × ν)} {k : κ}
    (h : alist_get d1 k = none) : alist_get (d1 ++ d2) k = alist_get d2 k := by
  simp only [alist_get] at h ⊢
  rw [List.find?_append]
  simp only [Option.map_eq_none'] at h
  simp [h]

theorem alist_get_append_of_some {d1 d2 : List (κ × ν)} {k : κ} {v : ν}
    (h : alist_get d1 k = some v) : alist_get (d1 ++ d2) k = some v := by
  simp only [alist_get] at h ⊢
  rw [List.find?_append]
  simp only [Option.map_eq_some'] at h
  obtain ⟨p, hp, hv⟩ := h
  simp [hp, hv]

theorem alist_update_cons (d : List (κ × ν)) (p : κ × ν) (m : List (κ × ν)) :
    alist_update d (p :: m) = alist_update (alist_set d p.1 p.2) m := rfl

theorem alist_update_get_of_none {m : List (κ × ν)} {k : κ}
    (d : List (κ × ν)) (h : alist_get m k = none) :
    alist_get (alist_update d m) k = alist_get d k := by
  induction m generalizing d with
  | nil => rfl
  | cons p rest ih =>
    obtain ⟨k1, v1⟩ := p
    rw [alist_get_none_iff] at h
    have h1 : k1 ≠ k := h (k1, v1) (List.mem_cons_self _ _)
    have hrest : alist_get rest k = none := by
      rw [alist_get_none_iff]
      exact fun p hp => h p (List.mem_cons_of_mem _ hp)
    rw [alist_update_cons, ih _ hrest]
    exact alist_get_set_ne d k1 k v1 (Ne.symm h1)

theorem alist_update_get_of_some {m : List (κ × ν)} {k : κ} {v : ν}
    (d : List (κ × ν)) (hnd : (alist_keys m).Nodup)
    (h : alist_get m k = some v) :
    alist_get (alist_update d m) k = some v := by
  induction m generalizing d with
  | nil => simp [alist_get] at h
  | cons p rest ih =>
    obtain ⟨k1, v1⟩ := p
    simp only [alist_keys, List.map_cons, List.nodup_cons] at hnd
    by_cases h1 : k1 = k
    · subst h1
      have hv : v1 = v := by
        simpa [alist_get, List.find?] using h
      subst hv
      have hrest : alist_get rest k1 = none :=
        alist_get_of_not_mem_keys hnd.1
      rw [alist_update_cons, alist_update_get_of_none _ hrest]
      exact alist_get_set_self d k1 v1
    · have hb1 : (k1 == k) = false := beq_eq_false_iff_ne.mpr h1
      have hrest : alist_get rest k = some v := by
        simpa [alist_get, List.find?, hb1] using h
      rw [alist_update_cons]
      exact ih _ hnd.2 hrest

theorem alist_update_eq_append {m : List (κ × ν)} (d : List (κ × ν))
    (hnd : (alist_keys m).Nodup)
    (hdis : ∀ p ∈ m, alist_get d p.1 = none) :
    alist_update d m = d ++ m := by
  induction m generalizing d with
  | nil => simp [alist_update]
  | cons p rest ih =>
    obtain ⟨k1, v1⟩ := p
    simp only [alist_keys, List.map_cons, List.nodup_cons] at hnd
    rw [alist_update_cons]
    have hset : alist_set d k1 v1 = d ++ [(k1, v1)] :=
      alist_set_of_get_none v1 (hdis (k1, v1) (List.mem_cons_self _ _))
    have hdis' : ∀ p ∈ rest, alist_get (d ++ [(k1, v1)]) p.1 = none := by
      intro p hp
      have hne : p.1 ≠ k1 := by
        intro hk
        exact hnd.1 (hk ▸ List.mem_map_of_mem Prod.fst hp)
      rw [alist_get_append_of_none (hdis p (List.mem_cons_of_mem _ hp))]
      rw [alist_get_none_iff]
      intro q hq
      simp at hq
      rw [hq]
      exact Ne.symm hne
    rw [hset, ih _ hnd.2 hdis']
    simp

end AListLemmas

theorem extractAux_mem {s : Str} {seen : List Char} {c : Char}
    (h : c ∈ extractAux seen s) :
    kanjiMatch c = true ∧ seen.contains c = false := by
  induction s generalizing seen with
  | nil => simp [extractAux] at h
  | cons c0 rest ih =>
    by_cases hc : (kanjiMatch c0 && !(seen.contains c0)) = true
    · rw [extractAux, if_pos hc] at h
      rcases List.mem_cons.mp h with hc0 | htail
      · subst hc0
        simp only [Bool.and_eq_true, Bool.not_eq_true'] at hc
        exact hc
      · have := ih htail
        refine ⟨this.1, ?_⟩
        have hcont := this.2
        simp only [List.contains_cons, Bool.or_eq_false_iff] at hcont
        exact hcont.2
    · rw [extractAux, if_neg hc] at h
      exact ih h

theorem extractAux_nodup (s : Str) (seen : List Char) :
    (extractAux seen s).Nodup := by
  induction s generalizing seen with
  | nil => simp [extractAux]
  | cons c0 rest ih =>
    by_cases hc : (kanjiMatch c0 && !(seen.contains c0)) = true
    · rw [extractAux, if_pos hc]
      refine List.nodup_cons.mpr ⟨?_, ih _⟩
      intro hmem
      have := (extractAux_mem hmem).2
      simp [List.contains_cons] at this
    · rw [extractAux, if_neg hc]
      exact ih _

theorem extract_nodup (word : Str) : (extract_unique_kanji word).Nodup :=
  extractAux_nodup word []

theorem extract_all_kanji {word : Str} {c : Char}
    (h : c ∈ extract_unique_kanji word) : kanjiMatch c = true :=
  (extractAux_mem h).1

theorem extractAux_fixed (l : List Char) (seen : List Char)
    (hnd : l.Nodup) (hk : ∀ c ∈ l, kanjiMatch c = true)
    (hseen : ∀ c ∈ l, seen.contains c = false) :
    extractAux seen l = l := by
  induction l generalizing seen with
  | nil => rfl
  | cons c0 rest ih =>
    have hc : (kanjiMatch c0 && !(seen.contains c0)) = true := by
      rw [hk c0 (List.mem_cons_self _ _), hseen c0 (List.mem_cons_self _ _)]
      rfl
    rw [extractAux, if_pos hc]
    have hnd' := List.nodup_cons.mp hnd
    congr 1
    refine ih _ hnd'.2 (fun c hc => hk c (List.mem_cons_of_mem _ hc)) ?_
    intro c hc
    have hne : (c == c0) = false := by
      refine beq_eq_false_iff_ne.mpr ?_
      intro he
      exact hnd'.1 (he ▸ hc)
    simp only [List.contains_cons, hne, hseen c (List.mem_cons_of_mem _ hc),
      Bool.or_self]

/-- Extraction is idempotent: re-extracting from an extraction's output
returns it unchanged. -/
theorem extract_idempotent (s : Str) :
    extract_unique_kanji (extract_unique_kanji s) = extract_unique_kanji s :=
  extractAux_fixed _ [] (extract_nodup s) (fun _ hc => extract_all_kanji hc)
    (fun _ _ => rfl)

theorem firstOccDedup_nil : firstOccDedup [] = [] := by
  rw [firstOccDedup]

theorem firstOccDedup_cons (c : Char) (l : List Char) :
    firstOccDedup (c :: l) = c :: firstOccDedup (l.filter (fun d => d != c)) := by
  rw [firstOccDedup]

theorem extractAux_eq_firstOccDedup (s : Str) (seen : List Char) :
    extractAux seen s =
      firstOccDedup (s.filter (fun c => kanjiMatch c && !(seen.contains c))) := by
  induction s generalizing seen with
  | nil => simp [extractAux, firstOccDedup_nil]
  | cons c0 rest ih =>
    by_cases hc : (kanjiMatch c0 && !(seen.contains c0)) = true
    · have hfc : (c0 :: rest).filter (fun c => kanjiMatch c && !(seen.contains c)) =
          c0 :: rest.filter (fun c => kanjiMatch c && !(seen.contains c)) := by
        rw [List.filter_cons, if_pos hc]
      rw [extractAux, if_pos hc, hfc, firstOccDedup_cons]
      congr 1
      rw [ih (c0 :: seen), List.filter_filter]
      refine congrArg firstOccDedup (List.filter_congr ?_)
      intro a _
      cases h1 : kanjiMatch a <;> cases h2 : a == c0 <;>
        cases h3 : seen.contains a <;>
        simp only [List.contains_cons, bne, h1, h2, h3] <;> rfl
    · have hfc : (c0 :: rest).filter (fun c => kanjiMatch c && !(seen.contains c)) =
          rest.filter (fun c => kanjiMatch c && !(seen.contains c)) := by
        rw [List.filter_cons, if_neg hc]
      rw [extractAux, if_neg hc, hfc]
      exact ih seen

/-- The extractor agrees with the spec-side description: keep the
characters of the target block, deduplicated to first occurrence. -/
theorem extract_eq_firstOccDedup (s : Str) :
    extract_unique_kanji s = firstOccDedup (s.filter kanjiMatch) := by
  rw [extract_unique_kanji, extractAux_eq_firstOccDedup]
  congr 1
  refine List.filter_congr ?_
  intro a _
  simp [List.contains]

theorem keys_hitsOf (cache : List (Char × Str)) (ks : List Char) :
    alist_keys (hitsOf cache ks) =
      ks.filter (fun k => (alist_get cache k).isSome) := by
  induction ks with
  | nil => rfl
  | cons k rest ih =>
    cases hg : alist_get cache k with
    | none =>
      simpa [hitsOf, alist_keys, List.filterMap_cons, List.filter_cons, hg] using ih
    | some v =>
      simpa [hitsOf, alist_keys, List.filterMap_cons, List.filter_cons, hg] using ih

theorem keys_answersOf (s a : Str) (f : Char → List Note) (ks : List Char) :
    alist_keys (answersOf s a f ks) =
      ks.filter (fun k => (scanCandidates s a k (f k)).isSome) := by
  induction ks with
  | nil => rfl
  | cons k rest ih =>
    cases hg : scanCandidates s a k (f k) with
    | none =>
      simpa [answersOf, alist_keys, List.filterMap_cons, List.filter_cons, hg] using ih
    | some v =>
      simpa [answersOf, alist_keys, List.filterMap_cons, List.filter_cons, hg] using ih

theorem lookupMeaningsAux_eq (s a : Str) (f : Char → List Note)
    (ks : List Char) (res : List (Char × Str)) :
    lookupMeaningsAux s a f res ks = alist_update res (answersOf s a f ks) := by
  induction ks generalizing res with
  | nil => rfl
  | cons k rest ih =>
    cases hg : scanCandidates s a k (f k) with
    | none =>
      simp only [lookupMeaningsAux, hg]
      have ha : answersOf s a f (k :: rest) = answersOf s a f rest := by
        simp [answersOf, List.filterMap_cons, hg]
      rw [ha]
      exact ih res
    | some v =>
      simp only [lookupMeaningsAux, hg]
      have ha : answersOf s a f (k :: rest) = (k, v) :: answersOf s a f rest := by
        simp [answersOf, List.filterMap_cons, hg]
      rw [ha, alist_update_cons]
      exact ih (alist_set res k v)

theorem cacheScanAux_eq (cache : List (Char × Str)) (ks : List Char)
    (res : List (Char × Str)) (ms : List Char) :
    cacheScanAux cache res ms ks =
      (alist_update res (hitsOf cache ks),
       ms ++ ks.filter (fun k => (alist_get cache k).isNone)) := by
  induction ks generalizing res ms with
  | nil => simp [cacheScanAux, hitsOf, alist_update]
  | cons k rest ih =>
    cases hg : alist_get cache k with
    | none =>
      simp only [cacheScanAux, hg]
      rw [ih]
      have hh : hitsOf cache (k :: rest) = hitsOf cache rest := by
        simp [hitsOf, List.filterMap_cons, hg]
      have hf : (k :: rest).filter (fun k => (alist_get cache k).isNone) =
          k :: rest.filter (fun k => (alist_get cache k).isNone) := by
        simp [List.filter_cons, hg]
      rw [hh, hf]
      simp
    | some v =>
      simp only [cacheScanAux, hg]
      rw [ih]
      have hh : hitsOf cache (k :: rest) = (k, v) :: hitsOf cache rest := by
        simp [hitsOf, List.filterMap_cons, hg]
      have hf : (k :: rest).filter (fun k => (alist_get cache k).isNone) =
          rest.filter (fun k => (alist_get cache k).isNone) := by
        simp [List.filter_cons, hg]
      rw [hh, hf, alist_update_cons]

theorem lookup_meanings_eq_answersOf (s a : Str) (f : Char → List Note)
    {ks : List Char} (hnd : ks.Nodup) :
    lookup_meanings s a f ks = answersOf s a f ks := by
  rw [lookup_meanings, lookupMeaningsAux_eq]
  rw [alist_update_eq_append [] ?hnd ?hdis]
  · simp
  case hnd =>
    rw [keys_answersOf]
    exact hnd.filter _
  case hdis =>
    intro p _
    rfl

/-- The central characterisation of the resolution engine: the result is
the cache hits (in extraction order) followed by the source's answers to
the cache misses (in miss order), and the new cache is the old cache with
the source's answers assigned. -/
theorem lookup_with_cache_eq (s a : Str) (f : Char → List Note)
    (cache : List (Char × Str)) (word : Str) :
    lookup_with_cache s a f cache word =
      (hitsOf cache (extract_unique_kanji word) ++
         answersOf s a f (missesOf cache word),
       alist_update cache (answersOf s a f (missesOf cache word))) := by
  have hresult : alist_update ([] : List (Char × Str))
      (hitsOf cache (extract_unique_kanji word)) =
      hitsOf cache (extract_unique_kanji word) := by
    rw [alist_update_eq_append [] ?hnd ?hdis]
    · simp
    case hnd =>
      rw [keys_hitsOf]
      exact (extract_nodup word).filter _
    case hdis =>
      intro p _
      rfl
  have hmnd : (missesOf cache word).Nodup := (extract_nodup word).filter _
  rw [lookup_with_cache]
  simp only [cacheScanAux_eq, hresult, List.nil_append]
  rw [show (extract_unique_kanji word).filter (fun k => (alist_get cache k).isNone) =
        missesOf cache word from rfl]
  by_cases hm : (missesOf cache word).isEmpty
  · rw [if_pos hm]
    rw [List.isEmpty_iff] at hm
    rw [hm]
    simp [answersOf, alist_update]
  · rw [if_neg hm]
    rw [lookup_meanings_eq_answersOf s a f hmnd]
    congr 1
    rw [alist_update_eq_append _ ?hnd ?hdis]
    case hnd =>
      rw [keys_answersOf]
      exact hmnd.filter _
    case hdis =>
      intro p hp
      have hkey : p.1 ∈ alist_keys (answersOf s a f (missesOf cache word)) :=
        List.mem_map_of_mem Prod.fst hp
      rw [keys_answersOf] at hkey
      have hmiss : p.1 ∈ missesOf cache word := (List.mem_filter.mp hkey).1
      have hnone : (alist_get cache p.1).isNone :=
        (List.mem_filter.mp hmiss).2
      refine alist_get_of_not_mem_keys ?_
      rw [keys_hitsOf]
      intro hsome
      have := (List.mem_filter.mp hsome).2
      rw [Option.isNone_iff_eq_none] at hnone
      rw [hnone] at this
      simp at this

theorem scanCandidates_none_of_all_missing (s a : Str) (k : Char)
    (notes : List Note) (h : ∀ n ∈ notes, fieldGet n s = none) :
    scanCandidates s a k notes = none := by
  induction notes with
  | nil => rfl
  | cons n rest ih =>
    simp only [scanCandidates, h n (List.mem_cons_self _ _)]
    exact ih (fun m hm => h m (List.mem_cons_of_mem _ hm))

theorem scanCandidates_filter (s a : Str) (k : Char) (notes : List Note) :
    scanCandidates s a k (notes.filter (fun n => (fieldGet n s).isSome)) =
      scanCandidates s a k notes := by
  induction notes with
  | nil => rfl
  | cons n rest ih =>
    cases hg : fieldGet n s with
    | none =>
      rw [List.filter_cons]
      simp only [hg, Option.isSome_none, Bool.false_eq_true, if_false]
      rw [ih]
      simp only [scanCandidates, hg]
    | some sv =>
      rw [List.filter_cons]
      simp only [hg, Option.isSome_some, if_true]
      simp only [scanCandidates, hg]
      rw [ih]

theorem lookupMeaningsAux_filter (s a : Str) (f : Char → List Note)
    (ks : List Char) (res : List (Char × Str)) :
    lookupMeaningsAux s a (fun c => (f c).filter (fun n => (fieldGet n s).isSome))
        res ks =
      lookupMeaningsAux s a f res ks := by
  induction ks generalizing res with
  | nil => rfl
  | cons k rest ih =>
    simp only [lookupMeaningsAux, scanCandidates_filter]
    cases hg : scanCandidates s a k (f k) with
    | none => exact ih res
    | some v => exact ih (alist_set res k v)

/-- C1 (counterexample): with an empty cache and a source whose matching
record for 畫 lacks the meaning field, the engine's returned mapping
contains the empty-meaning entry for 畫 — it is not omitted — while the
cache also stores the empty string. -/
theorem empty_meaning_in_engine_result :
    (lookup_with_cache sE aK fGa [] (strL "畫")).1 = [('畫', [])] ∧
    ¬(∀ p ∈ (lookup_with_cache sE aK fGa [] (strL "畫")).1, p.2 ≠ []) ∧
    (lookup_with_cache sE aK fGa [] (strL "畫")).2 = [('畫', [])] := by
  decide

/-- C1 (amended): every character the source answered for the miss list —
including answers that are the empty string — appears both in the
engine's returned mapping and in the updated cache, with that answer.
The engine itself performs no empty-meaning filtering; that is left to
its consumers (`join_pairs` and the hover HTML). -/
theorem source_answers_kept_in_result_and_cache
    (s a : Str) (f : Char → List Note) (cache : List (Char × Str))
    (word : Str) (k : Char) (v : Str)
    (h : alist_get (lookup_meanings s a f (missesOf cache word)) k = some v) :
    alist_get (lookup_with_cache s a f cache word).1 k = some v ∧
    alist_get (lookup_with_cache s a f cache word).2 k = some v := by
  have hmnd : (missesOf cache word).Nodup := (extract_nodup word).filter _
  rw [lookup_meanings_eq_answersOf s a f hmnd] at h
  have hand : (alist_keys (answersOf s a f (missesOf cache word))).Nodup := by
    rw [keys_answersOf]
    exact hmnd.filter _
  constructor
  · rw [lookup_with_cache_eq]
    have hkmem : k ∈ alist_keys (answersOf s a f (missesOf cache word)) :=
      alist_get_some_mem_keys h
    rw [keys_answersOf] at hkmem
    have hmiss : k ∈ missesOf cache word := (List.mem_filter.mp hkmem).1
    have hnone : (alist_get cache k).isNone := (List.mem_filter.mp hmiss).2
    have hhits : alist_get (hitsOf cache (extract_unique_kanji word)) k = none := by
      refine alist_get_of_not_mem_keys ?_
      rw [keys_hitsOf]
      intro hmemf
      have hs := (List.mem_filter.mp hmemf).2
      rw [Option.isNone_iff_eq_none] at hnone
      rw [hnone] at hs
      simp at hs
    exact (alist_get_append_of_none hhits).trans h
  · rw [lookup_with_cache_eq]
    exact alist_update_get_of_some cache hand h

theorem source_answers_kept_in_result_and_cache_witness :
    alist_get (lookup_with_cache sE aK fGa [] (strL "畫")).1 '畫' = some [] ∧
    alist_get (lookup_with_cache sE aK fGa [] (strL "畫")).2 '畫' = some [] :=
  source_answers_kept_in_result_and_cache sE aK fGa [] (strL "畫") '畫' []
    (by decide)

/-- C2: the engine partitions the extracted characters into cache hits
and cache misses, queries the source exactly on the miss list, returns
the union of cached and freshly resolved values, and merges all source
answers into the cache; in particular with Cache = \x7b木: tree\x7d and a
source resolving 林 to woods, resolving "木林" returns both pairs and the
cache afterwards holds 林. -/
theorem engine_partitions_hits_and_misses :
    (∀ (s a : Str) (f : Char → List Note) (cache : List (Char × Str)) (word : Str),
      lookup_with_cache s a f cache word =
        (hitsOf cache (extract_unique_kanji word) ++
           answersOf s a f (missesOf cache word),
         alist_update cache (answersOf s a f (missesOf cache word)))) ∧
    lookup_with_cache sE aK fWoods [('木', strL "tree")] (strL "木林") =
      ([('木', strL "tree"), ('林', strL "woods")],
       [('木', strL "tree"), ('林', strL "woods")]) :=
  ⟨lookup_with_cache_eq, by decide⟩

/-- C3: a character the source does not answer is never written to the
cache — its cache entry is exactly what it was before — and, when it was
not cached to begin with, any later call on a text containing it puts it
in the miss list queried against the source again. -/
theorem unanswered_char_never_cached
    (s a : Str) (f : Char → List Note) (cache : List (Char × Str))
    (word : Str) (k : Char)
    (h : alist_get (lookup_meanings s a f (missesOf cache word)) k = none) :
    alist_get (lookup_with_cache s a f cache word).2 k = alist_get cache k ∧
    (alist_get cache k = none → ∀ w2 : Str, k ∈ extract_unique_kanji w2 →
      k ∈ missesOf (lookup_with_cache s a f cache word).2 w2) := by
  have hmnd : (missesOf cache word).Nodup := (extract_nodup word).filter _
  rw [lookup_meanings_eq_answersOf s a f hmnd] at h
  have h2 : alist_get (lookup_with_cache s a f cache word).2 k = alist_get cache k := by
    rw [lookup_with_cache_eq]
    exact alist_update_get_of_none cache h
  refine ⟨h2, ?_⟩
  intro hck w2 hmem
  refine List.mem_filter.mpr ⟨hmem, ?_⟩
  rw [h2, hck]
  rfl

theorem unanswered_char_never_cached_witness :
    alist_get (lookup_with_cache sE aK fNoneStore [] (strL "龜")).2 '龜' =
      alist_get ([] : List (Char × Str)) '龜' ∧
    '龜' ∈ missesOf (lookup_with_cache sE aK fNoneStore [] (strL "龜")).2 (strL "龜") := by
  have h := unanswered_char_never_cached sE aK fNoneStore [] (strL "龜") '龜' (by decide)
  exact ⟨h.1, h.2 (by decide) (strL "龜") (by decide)⟩

/-- C4 (counterexample): with Cache = \x7b木: tree\x7d and a source
resolving 林, resolving "林木" lists 木 (the cache hit) before 林 even
though 林 occurs first in the input, so the result is not in
first-occurrence order. -/
theorem result_not_first_occurrence_order :
    ((lookup_with_cache sE aK fWoods [('木', strL "tree")] (strL "林木")).1).map Prod.fst =
      ['木', '林'] ∧
    extract_unique_kanji (strL "林木") = ['林', '木'] ∧
    (['木', '林'] : List Char) ≠ ['林', '木'] := by
  decide

/-- C4 (amended): the returned mapping lists the cache hits first, in
first-occurrence order of the input, followed by the source-resolved
misses, in first-occurrence order among the misses — not the overall
first-occurrence order of the input text. -/
theorem result_orders_hits_before_misses
    (s a : Str) (f : Char → List Note) (cache : List (Char × Str)) (word : Str) :
    (lookup_with_cache s a f cache word).1 =
      hitsOf cache (extract_unique_kanji word) ++
        answersOf s a f (missesOf cache word) ∧
    alist_keys (hitsOf cache (extract_unique_kanji word)) =
      (extract_unique_kanji word).filter (fun k => (alist_get cache k).isSome) ∧
    alist_keys (answersOf s a f (missesOf cache word)) =
      (missesOf cache word).filter (fun k => (scanCandidates s a k (f k)).isSome) := by
  refine ⟨?_, keys_hitsOf cache _, keys_answersOf s a f _⟩
  rw [lookup_with_cache_eq]

/-- C5 (counterexample): on a note whose destination field is already
empty, with a source that answers 畫 with the empty meaning, `populate`
returns true while the note — hence the destination field — is unchanged,
so true does not mean the field changed. -/
theorem populate_true_without_change :
    populate [] sE dstC sE aK fGa id noteGa = (true, noteGa) ∧
    fieldGet noteGa dstC = some [] := by
  decide

/-- C5 (amended): `populate` returns false leaving the record untouched
when any check fails; when it returns true it has written
`join_pairs` of the resolved mapping into the destination field, a write
that may leave the stored value unchanged. -/
theorem populate_result_characterisation
    (noteTypes src dst s a : Str) (f : Char → List Note)
    (mediaStrip : Str → Str) (note : Note) :
    (populate noteTypes src dst s a f mediaStrip note).2 =
      (if (populate noteTypes src dst s a f mediaStrip note).1 then
        setField note dst (join_pairs (lookup_meanings s a f
          (extract_unique_kanji (pyStrip (mediaStrip (getFieldD note src))))))
      else note) := by
  simp only [populate]
  split_ifs <;> first | rfl | simp_all

/-- C6 (counterexample): when resolution yields only an empty meaning,
`populate` does not skip: it returns true and overwrites the destination
field (here clearing "old"), contradicting the claimed false-and-no-
mutation behaviour. -/
theorem populate_true_on_all_empty_meanings :
    lookup_meanings sE aK fGa
        (extract_unique_kanji (pyStrip (id (getFieldD noteOld sE)))) =
      [('畫', [])] ∧
    populate [] sE dstC sE aK fGa id noteOld =
      (true, ⟨strL "Vocab", [(strL "Expression", strL "畫"), (strL "Constituents", [])]⟩) ∧
    (populate [] sE dstC sE aK fGa id noteOld).2 ≠ noteOld := by
  decide

/-- C6 (amended): `populate` returns false without mutation when the
resolved mapping is empty; a non-empty mapping — even one holding only
empty meanings — instead leads to a write and a true result. -/
theorem populate_skips_empty_mapping
    (noteTypes src dst s a : Str) (f : Char → List Note)
    (mediaStrip : Str → Str) (note : Note)
    (h : lookup_meanings s a f
        (extract_unique_kanji (pyStrip (mediaStrip (getFieldD note src)))) = []) :
    populate noteTypes src dst s a f mediaStrip note = (false, note) := by
  simp only [populate]
  split_ifs with h1 h2 h3 h4 h5
  · rfl
  · rfl
  · rfl
  · rfl
  · rfl
  · exact absurd (by rw [h]; rfl) h5

theorem populate_skips_empty_mapping_witness :
    populate [] sE dstC sE aK fNoneStore id noteOld = (false, noteOld) :=
  populate_skips_empty_mapping [] sE dstC sE aK fNoneStore id noteOld (by decide)

/-- C7: extraction keeps exactly the characters that full-match the CJK
block U+4E00–U+9FFF, deduplicated to their first occurrence (the
spec-side `firstOccDedup` of the block filter); it is pure, nodup, maps
empty input to empty output, is idempotent, and collapses "木林木" to
[木, 林]. -/
theorem extract_contract :
    (∀ s : Str, extract_unique_kanji s = firstOccDedup (s.filter kanjiMatch)) ∧
    (∀ s : Str, (extract_unique_kanji s).Nodup) ∧
    (∀ s : Str, extract_unique_kanji (extract_unique_kanji s) = extract_unique_kanji s) ∧
    extract_unique_kanji [] = [] ∧
    extract_unique_kanji (strL "木林木") = ['木', '林'] :=
  ⟨extract_eq_firstOccDedup, extract_nodup, extract_idempotent, rfl, by decide⟩

/-- C8 (counterexample): a candidate record whose meaning-field access
fails is not skipped — it contributes an empty-string entry for the
queried character. -/
theorem missing_meaning_field_still_contributes :
    fieldGet nGa aK = none ∧
    lookup_meanings sE aK fGa ['畫'] = [('畫', [])] := by
  decide

/-- C8 (amended): a field-not-found failure on the search field skips
that candidate record and the scan continues with the remaining
candidates: the scan over a failing candidate followed by any remaining
candidates equals the scan over the remaining candidates alone, and
deleting every search-field-failing candidate from every query changes
no resolution; when all candidates fail, the character gets no entry.
A field-not-found failure on the meaning field of a matching candidate,
however, is not a skip: the character is recorded with the empty-string
meaning and the scan stops. -/
theorem candidate_skip_policy (s a : Str) (f : Char → List Note) (k : Char) :
    (∀ (n : Note) (rest : List Note), fieldGet n s = none →
      scanCandidates s a k (n :: rest) = scanCandidates s a k rest) ∧
    (∀ ks : List Char,
      lookup_meanings s a
          (fun c => (f c).filter (fun n => (fieldGet n s).isSome)) ks =
        lookup_meanings s a f ks) ∧
    ((∀ n ∈ f k, fieldGet n s = none) → lookup_meanings s a f [k] = []) ∧
    (∀ (n : Note) (rest : List Note) (sv : Str),
      f k = n :: rest → fieldGet n s = some sv → pyStrip sv = [k] →
      fieldGet n a = none → lookup_meanings s a f [k] = [(k, [])]) := by
  refine ⟨?_, ?_, ?_, ?_⟩
  · intro n rest hn
    simp only [scanCandidates, hn]
  · intro ks
    exact lookupMeaningsAux_filter s a f ks []
  · intro h
    simp [lookup_meanings, lookupMeaningsAux,
      scanCandidates_none_of_all_missing s a k (f k) h]
  · intro n rest sv hfk hsv hstrip ha
    have hb : (pyStrip sv == [k]) = true := beq_iff_eq.mpr hstrip
    have hscan : scanCandidates s a k (f k) = some [] := by
      rw [hfk]
      simp only [scanCandidates, hsv, hb, if_true, ha]
    simp [lookup_meanings, lookupMeaningsAux, hscan, alist_set]

theorem candidate_skip_policy_witness :
    scanCandidates sE aK '林' (nOther :: [nWoods]) =
      scanCandidates sE aK '林' [nWoods] ∧
    scanCandidates sE aK '林' [nOther, nWoods] = some (strL "woods") ∧
    lookup_meanings sE aK fOther ['木'] = [] ∧
    lookup_meanings sE aK fGa ['畫'] = [('畫', [])] :=
  ⟨(candidate_skip_policy sE aK fNoneStore '林').1 nOther [nWoods] (by decide),
   by decide,
   (candidate_skip_policy sE aK fOther '木').2.2.1 (by decide),
   (candidate_skip_policy sE aK fGa '畫').2.2.2 nGa [] (strL "畫")
     (by decide) (by decide) (by decide) (by decide)⟩

/-- C9 (counterexample): when the cache file is absent, `load_cache`
returns the empty table without reporting any failure, contrary to the
claim that absence is reported. -/
theorem absent_cache_file_not_reported :
    load_cache CacheFile.absent = ([], false) ∧
    (load_cache CacheFile.absent).2 ≠ true := by
  decide

/-- C9 (amended): `load_cache` never raises (it is total on the three
file states): a valid file seeds the table verbatim with no report, an
absent file yields the empty table silently, and an unreadable or
unparsable file yields the empty table and reports the failure. -/
theorem load_cache_total_behaviour :
    load_cache CacheFile.absent = ([], false) ∧
    load_cache CacheFile.corrupt = ([], true) ∧
    (∀ t : List (Char × Str), load_cache (CacheFile.valid t) = (t, false)) :=
  ⟨rfl, rfl, fun _ => rfl⟩

/-- C10: a command without the "kanjiLookup:" prefix is passed through —
the incoming handled value is returned unchanged, the cache is untouched
and nothing is dispatched to the display; a prefixed command resolves
exactly the text after the first colon and dispatches its rendering. -/
theorem non_lookup_commands_passthrough
    (s a : Str) (f : Char → List Note) (cache : List (Char × Str))
    (handled : Bool × Option Str) (cmd : Str) :
    (leadsWith (strL "kanjiLookup:") cmd = false →
      on_js_command s a f cache handled cmd = (handled, cache, none)) ∧
    (leadsWith (strL "kanjiLookup:") cmd = true →
      on_js_command s a f cache handled cmd =
        ((true, none),
         (lookup_with_cache s a f cache (splitColonRest cmd)).2,
         some (splitColonRest cmd,
           hoverHtml (lookup_with_cache s a f cache (splitColonRest cmd)).1
             (splitColonRest cmd)))) := by
  constructor
  · intro h
    simp [on_js_command, h]
  · intro h
    simp [on_js_command, h]

theorem non_lookup_commands_passthrough_witness :
    on_js_command sE aK fNoneStore [] (false, none) (strL "other") =
      ((false, none), [], none) ∧
    on_js_command sE aK fNoneStore [] (false, none) (strL "kanjiLookup:木") =
      ((true, none),
       (lookup_with_cache sE aK fNoneStore []
         (splitColonRest (strL "kanjiLookup:木"))).2,
       some (splitColonRest (strL "kanjiLookup:木"),
         hoverHtml (lookup_with_cache sE aK fNoneStore []
             (splitColonRest (strL "kanjiLookup:木"))).1
           (splitColonRest (strL "kanjiLookup:木")))) :=
  ⟨(non_lookup_commands_passthrough sE aK fNoneStore [] (false, none)
      (strL "other")).1 (by decide),
   (non_lookup_commands_passthrough sE aK fNoneStore [] (false, none)
      (strL "kanjiLookup:木")).2 (by decide)⟩
